import Mathlib

/-!
# Verification of the leakage accounting engine of `fix_gtdb_mg`

This file is a shallow embedding, in Lean 4, of the core data structures and
algorithms of the `fix_gtdb_mg` repository (files `src/pairwise_leakage.rs`,
`src/common.rs`, `src/bin/mask_genes.rs`), together with theorems settling the
specification claims about them.

Modelling conventions:
* Rust `isize`/`usize` are modelled as unbounded `Int`/`Nat`; machine overflow
  and wrap-around of integer arithmetic are not modelled.  Casts `as u32`
  keep their truncating behaviour (`% 2^32`) where a cast between types is
  semantically relevant (table keys).
* `f64` is modelled by the inductive type `F64` below: finite values are exact
  rationals (IEEE rounding of finite arithmetic is not modelled; the claims
  settled here depend only on the special values NaN/±∞, on comparisons, and
  on exactly representable operations), and the special values NaN, +∞, -∞
  follow IEEE comparison and propagation rules.
* Rust panics (failed `assert!`, out-of-bounds indexing, `unwrap` of `None`,
  `expect`) are modelled by `Option`/`none`.
* `HashMap`s are modelled as association lists in insertion order; a
  tab-separated output line is modelled as its list of fields.
-/
/-- IEEE-754 double model: exact finite rationals plus the special values. -/
inductive F64 where
  | finite (q : ℚ)
  | inf
  | neginf
  | nan
deriving DecidableEq, Repr

namespace F64

/-- IEEE `<`: any comparison involving NaN is false. -/
def lt : F64 → F64 → Bool
  | nan, _ => false
  | _, nan => false
  | finite a, finite b => a < b
  | finite _, inf => true
  | finite _, neginf => false
  | inf, _ => false
  | neginf, neginf => false
  | neginf, _ => true

/-- IEEE `<=`: any comparison involving NaN is false. -/
def le : F64 → F64 → Bool
  | nan, _ => false
  | _, nan => false
  | finite a, finite b => a ≤ b
  | finite _, inf => true
  | finite _, neginf => false
  | inf, inf => true
  | inf, _ => false
  | neginf, _ => true

/-- IEEE `==`: NaN compares unequal to everything, including itself. -/
def beq : F64 → F64 → Bool
  | nan, _ => false
  | _, nan => false
  | finite a, finite b => a == b
  | inf, inf => true
  | neginf, neginf => true
  | _, _ => false

/-- IEEE addition on the model (finite addition exact). -/
def add : F64 → F64 → F64
  | nan, _ => nan
  | _, nan => nan
  | inf, neginf => nan
  | neginf, inf => nan
  | inf, _ => inf
  | _, inf => inf
  | neginf, _ => neginf
  | _, neginf => neginf
  | finite a, finite b => finite (a + b)

/-- IEEE division on the model (finite division exact; zeros are `+0`). -/
def div : F64 → F64 → F64
  | nan, _ => nan
  | _, nan => nan
  | inf, inf => nan
  | inf, neginf => nan
  | neginf, inf => nan
  | neginf, neginf => nan
  | inf, finite b => if b < 0 then neginf else inf
  | neginf, finite b => if b < 0 then inf else neginf
  | finite _, inf => finite 0
  | finite _, neginf => finite 0
  | finite a, finite b =>
    if b = 0 then
      if a = 0 then nan else if a < 0 then neginf else inf
    else finite (a / b)

/-- The float `0.0`. -/
def zero : F64 := finite 0

/-- `x.is_nan()`. -/
def isNan : F64 → Bool
  | nan => true
  | _ => false

/-- Rust `f64 as isize`: truncation toward zero, saturating, NaN to 0. -/
def toIsize : F64 → Int
  | nan => 0
  | inf => 2 ^ 63 - 1
  | neginf => -(2 ^ 63)
  | finite q =>
    let t : Int := if 0 ≤ q then Int.floor q else Int.ceil q
    if t < -(2 ^ 63) then -(2 ^ 63) else if 2 ^ 63 - 1 < t then 2 ^ 63 - 1 else t

/-- `Int` to `f64` (exact in the model). -/
def ofInt (n : Int) : F64 := finite n

end F64

/-!
## `Genes`: the Sparse Gene Counter (`src/pairwise_leakage.rs`)

`Genes` holds a growable vector of `isize` slots; the sentinel `-1`
(`Genes::EMPTY`) means "unset".
-/
/-- `struct Genes { data: Vec<isize> }`. -/
structure Genes where
  data : List Int
deriving DecidableEq, Repr

namespace Genes

/-- `Genes::EMPTY`. -/
def EMPTY : Int := -1

/-- `self.data.resize_with(gene + 1, || Self::EMPTY)`, executed only when the
index is out of range (as in the source). -/
def growTo (l : List Int) (gene : Nat) : List Int :=
  if gene < l.length then l else l ++ List.replicate (gene + 1 - l.length) (-1)

/-- Slot read with the out-of-range default `EMPTY`; this is the abstract
per-gene content of a counter (out-of-range and sentinel both mean unset). -/
def slotD (l : List Int) (gene : Nat) : Int := l.getD gene (-1)

/-- `Genes::increment` (`pairwise_leakage.rs:86-92`): grow if needed filling
with the sentinel, set an unset slot to 0, then add 1. -/
def increment (g : Genes) (gene : Nat) : Genes :=
  let d := growTo g.data gene
  let cur := slotD d gene
  let cur := if cur = -1 then 0 else cur
  ⟨d.set gene (cur + 1)⟩

/-- `Genes::get` (`pairwise_leakage.rs:94-101`): `none` models the
out-of-bounds indexing panic of `self.data[gene]`; `some none` is the unset
result `None`; `some (some n)` is `Some(count as usize)`. -/
def get (g : Genes) (gene : Nat) : Option (Option Nat) :=
  if gene < g.data.length then
    let count := slotD g.data gene
    if count = -1 then some none else some (some count.toNat)
  else none

/-- `Genes::total` (`pairwise_leakage.rs:103-105`):
`fold(0, |acc, x| acc + max(*x, 0) as usize)`. -/
def total (g : Genes) : Nat :=
  g.data.foldl (fun acc x => acc + (max x 0).toNat) 0

/-- Loop body of `Genes::merge_from` (`pairwise_leakage.rs:107-120`),
iterating over `other.data` with explicit gene index `g`; `none` models a
failed `assert!`. -/
def mergeFromGo (t : List Int) (src : List Int) (g : Nat) : Option (List Int) :=
  match src with
  | [] => some t
  | c :: rest =>
    if c = -1 then mergeFromGo t rest (g + 1)
    else if c ≤ 0 then none
    else
      let d := growTo t g
      let cur := slotD d g
      let cur := if cur = -1 then 0 else cur
      let v := cur + c
      if v ≤ 0 then none
      else mergeFromGo (d.set g v) rest (g + 1)

/-- `Genes::merge_from`: merge `other` into `t`; `none` models a panic. -/
def mergeFrom (t other : Genes) : Option Genes :=
  (mergeFromGo t.data other.data 0).map Genes.mk

/-- `Genes::from_slice` (`pairwise_leakage.rs:122-126`). -/
def from_slice (l : List Int) : Genes := ⟨l⟩

/-- Every slot is the sentinel or strictly positive: the invariant of
counters reachable through the `Genes` API (claim C10). -/
def WF (g : Genes) : Prop := ∀ x ∈ g.data, x = -1 ∨ 0 < x

instance : DecidablePred WF := fun g =>
  inferInstanceAs (Decidable (∀ x ∈ g.data, x = -1 ∨ 0 < x))

/-!
## Specification helpers for `Genes`
-/

/-- `0` if the slot is the sentinel, otherwise the slot value: the value the
source writes before adding into a slot. -/
def norm (x : Int) : Int := if x = -1 then 0 else x

/-- Length of `l` up to its last non-sentinel slot. -/
def setLen : List Int → Nat
  | [] => 0
  | c :: rest => if setLen rest = 0 then (if c = -1 then 0 else 1) else setLen rest + 1

/-- `Genes::total` as a function of the raw slot list. -/
def totalL (l : List Int) : Nat := l.foldl (fun acc x => acc + (max x 0).toNat) 0

/-- The slot of `src` that the merge loop, started at gene index `g0`,
adds into gene `j` of the target (`-1` when `src` does not touch `j`). -/
def srcAt (src : List Int) (g0 j : Nat) : Int :=
  if g0 ≤ j then slotD src (j - g0) else -1

end Genes

/-- Counters reachable through the `Genes` API: the empty counter
(`Genes::default()`), `increment`, and successful `merge_from` with a
reachable argument. -/
inductive Reachable : Genes → Prop where
  | empty : Reachable ⟨[]⟩
  | inc (g : Genes) (gene : Nat) : Reachable g → Reachable (g.increment gene)
  | merge (a b c : Genes) : Reachable a → Reachable b →
      a.mergeFrom b = some c → Reachable c

/-!
## Persisted form of the Pairwise Leak Table (`Leakage::load` and the
`Display` implementations, `src/pairwise_leakage.rs`)

A tab-separated line is modelled as its list of integer fields.  The table
writer emits `from <TAB> to <TAB> {Genes}` where `Display for Genes` prints
`total <TAB> data[1] <TAB> data[2] ...` — note the `skip(1)`: slot 0 is not
written.  `Leakage::load` splits a line, parses every field as `isize`
(a panic on a malformed field; parsing is token-level here), asserts all of
`tokens[3..]` nonzero, and rebuilds the counter with
`Genes::from_slice(&tokens[3..])` — re-based at index 0.  Counters whose
`data` has length below 2 emit a trailing empty field (`"{}\t{}"` with an
empty join), which the reloader fails to parse; such tables are outside the
round-trip theorem's hypotheses.
-/
/-- The integer fields of one persisted table line for entry
`(fromT, toT) -> g`. -/
def saveFields (fromT toT : Nat) (g : Genes) : List Int :=
  (fromT : Int) :: (toT : Int) :: (g.total : Int) :: g.data.drop 1

/-- One iteration of `Leakage::load` (`pairwise_leakage.rs:159-179`) on the
parsed fields of a line; `none` models a panic (field indexing out of bounds
or the nonzero assertion). `as u32` truncates modulo `2^32`. -/
def loadFields (tokens : List Int) : Option ((Nat × Nat) × Genes) :=
  if tokens.length < 3 then none
  else if (tokens.drop 3).all (fun x => x != 0) then
    some ((((tokens.getD 0 0) % (2 ^ 32)).toNat,
           ((tokens.getD 1 0) % (2 ^ 32)).toNat),
          Genes.from_slice (tokens.drop 3))
  else none

/-- Writing every entry of a table in the persisted tabular form. -/
def saveTable (entries : List ((Nat × Nat) × Genes)) : List (List Int) :=
  entries.map (fun e => saveFields e.1.1 e.1.2 e.2)

/-- `Leakage::load` over all lines: each line is loaded and inserted in
sequence; a panic on any line aborts the load. -/
def loadTable : List (List Int) → Option (List ((Nat × Nat) × Genes))
  | [] => some []
  | line :: rest =>
    match loadFields line, loadTable rest with
    | some e, some es => some (e :: es)
    | _, _ => none

/-!
## Alignment records and the Identity Resolver (`src/common.rs`)
-/
/-- Rust `str::split('_')` on the character list of a token. -/
def splitUscore : List Char → List (List Char)
  | [] => [[]]
  | c :: rest =>
    if c = '_' then [] :: splitUscore rest
    else
      match splitUscore rest with
      | [] => [[c]]
      | t :: ts => (c :: t) :: ts

/-- `str::parse::<usize>()` on a field: digits only (the optional leading
`+` Rust accepts is not modelled; no claim depends on it). -/
def parseNat (cs : List Char) : Option Nat :=
  if cs.isEmpty then none
  else if cs.all (fun c => c.isDigit) then
    some (cs.foldl (fun acc c => acc * 10 + (c.toNat - '0'.toNat)) 0)
  else none

/-- `taxid_geneid` (`common.rs:13-21`): split on `_`, parse the first two
fields; `none` is the error (too few fields or a parse failure). -/
def taxid_geneid (token : String) : Option (Nat × Nat) :=
  match splitUscore token.data with
  | p1 :: p2 :: _ =>
    match parseNat p1, parseNat p2 with
    | some a, some b => some (a, b)
    | _, _ => none
  | _ => none

/-- `struct Sam` (`common.rs:58-70`). -/
structure Sam where
  qname : String
  flag : Nat
  rname : String
  pos : Nat
  mapq : Nat
  cigar : String
  rnext : String
  pnext : Nat
  tlen : Int
  seq : String
  qual : String
deriving DecidableEq, Repr

namespace Sam

/-- `Sam::is_aligned` (`common.rs:96-98`). -/
def is_aligned (s : Sam) : Bool := s.rname != "*"

end Sam

/-- `struct FromTo` (`common.rs:164-169`); fields are `u32`. -/
structure FromTo where
  query : Nat
  reference : Nat
  query_gene : Nat
  reference_gene : Nat
deriving DecidableEq, Repr

/-- `sam_to_ids` (`common.rs:171-182`): resolve both names, truncating
`as u32`; `none` models the `expect` panic on an unparseable name. -/
def sam_to_ids (s : Sam) : Option FromTo :=
  match taxid_geneid s.qname, taxid_geneid s.rname with
  | some (qt, qg), some (rt, rg) =>
    some ⟨qt % 2 ^ 32, rt % 2 ^ 32, qg % 2 ^ 32, rg % 2 ^ 32⟩
  | _, _ => none

/-!
## The Pairwise Leak Table builder (`Leakage::from_sam`,
`src/pairwise_leakage.rs:136-157`)
-/
/-- `struct Leakage { map: HashMap<LeakagePair, Genes> }` as an association
list in insertion order; keys are `(from, to)` pairs. -/
structure Leakage where
  map : List ((Nat × Nat) × Genes)
deriving DecidableEq, Repr

/-- `HashMap::get`. -/
def lookupPair : List ((Nat × Nat) × Genes) → (Nat × Nat) → Option Genes
  | [], _ => none
  | (k', g) :: rest, k => if k' = k then some g else lookupPair rest k

/-- `res.map.entry(key).or_default()` followed by
`entry.increment(gene)`. -/
def updateEntry : List ((Nat × Nat) × Genes) → (Nat × Nat) → Nat →
    List ((Nat × Nat) × Genes)
  | [], k, gene => [(k, (Genes.mk []).increment gene)]
  | (k', g) :: rest, k, gene =>
    if k' = k then (k', g.increment gene) :: rest
    else (k', g) :: updateEntry rest k gene

/-- One loop iteration of `Leakage::from_sam`: skip unaligned or low-mapq
records, otherwise resolve ids and increment the counter at pair
`(query, reference)` on the reference gene index.  The gene-mismatch
`eprintln!` is observability only and not modelled.  `none` models the
id-resolution panic. -/
def processRecord (minMapq : Nat) (tbl : Leakage) (sam : Sam) : Option Leakage :=
  if !sam.is_aligned || sam.mapq < minMapq then some tbl
  else
    match sam_to_ids sam with
    | none => none
    | some ft =>
      some ⟨updateEntry tbl.map (ft.query, ft.reference) ft.reference_gene⟩

/-- `Leakage::from_sam` over the record sequence of the input. -/
def from_sam (minMapq : Nat) (records : List Sam) : Option Leakage :=
  records.foldlM (processRecord minMapq) ⟨[]⟩

/-!
## `NormGenes`: the Normalized Gene Counter (`src/pairwise_leakage.rs`)
-/
/-- `struct NormGenes { data: Vec<f64> }`; sentinel `NormGenes::EMPTY`
is `-1.0`. -/
structure NormGenes where
  data : List F64
deriving DecidableEq, Repr

namespace NormGenes

/-- In-range slot read (the default is the sentinel, only reachable
out of range). -/
def fslot (d : List F64) (g : Nat) : F64 := d.getD g (F64.finite (-1))

/-- `self.data.resize_with(gene + 1, || Self::EMPTY)`. -/
def growToF (d : List F64) (g : Nat) : List F64 :=
  if g < d.length then d else d ++ List.replicate (g + 1 - d.length) (F64.finite (-1))

/-- `NormGenes::total` (`pairwise_leakage.rs:74-80`): fold adding each slot
unless it is negative or passes the (always-false) `*x == f64::NAN` test,
then `assert!(res >= 0.0)`; `none` models the assertion panic. -/
def total (g : NormGenes) : Option F64 :=
  let res := g.data.foldl
    (fun acc x =>
      F64.add acc (if F64.lt x F64.zero || F64.beq x F64.nan then F64.zero else x))
    F64.zero
  if F64.le F64.zero res then some res else none

/-- Loop of `NormGenes::merge_normalized_from_counts`
(`pairwise_leakage.rs:52-73`): skip sentinel counts, grow and zero-init the
accumulator slot, read `normalizer.data[gene]` (panic out of range), divide,
`assert!(res > 0.0)` (panic if it fails), and add the ratio into the slot. -/
def mergeNormGo (d : List F64) (other normalizer : List Int) (g : Nat) :
    Option (List F64) :=
  match other with
  | [] => some d
  | c :: rest =>
    if c = -1 then mergeNormGo d rest normalizer (g + 1)
    else
      let d2 := growToF d g
      let d3 := if F64.beq (fslot d2 g) (F64.finite (-1)) then d2.set g F64.zero else d2
      if normalizer.length ≤ g then none
      else
        let res := F64.div (F64.ofInt c) (F64.ofInt (normalizer.getD g 0))
        if F64.lt F64.zero res then
          mergeNormGo (d3.set g (F64.add (fslot d3 g) res)) rest normalizer (g + 1)
        else none

/-- `NormGenes::merge_normalized_from_counts`. -/
def merge_normalized_from_counts (self : NormGenes) (other normalizer : Genes) :
    Option NormGenes :=
  (mergeNormGo self.data other.data normalizer.data 0).map NormGenes.mk

end NormGenes

/-!
## The Per-Taxon Leak Ledger and fractional scheme (`src/bin/mask_genes.rs`)
-/
/-- Rust `Vec::resize_with(n, || None)`: truncates when `n` is below the
current length, extends with `None` otherwise. -/
def resizeWith {α : Type} (l : List (Option α)) (n : Nat) : List (Option α) :=
  if n ≤ l.length then l.take n else l ++ List.replicate (n - l.length) none

/-- `struct Leaks` (`mask_genes.rs:12-17`). -/
structure Leaks where
  correct : F64
  incoming : F64
  outgoing : F64
deriving DecidableEq, Repr

/-- `struct Species` (`mask_genes.rs:19-23`). -/
structure Species where
  id : Nat
  leaks : List (Option Leaks)
deriving DecidableEq, Repr

namespace Species

/-- `Species::new`. -/
def new (taxid : Nat) : Species := ⟨taxid, []⟩

/-- The grow-and-initialize step of `Species::get` (`mask_genes.rs:69-76`):
when the gene is out of range or unset, `resize_with(geneid + 1)` (which
truncates a longer vector) and set the slot to a fresh default. -/
def touch (l : List (Option Leaks)) (g : Nat) : List (Option Leaks) :=
  if l.length ≤ g ∨ l.getD g none = none then
    (resizeWith l (g + 1)).set g (some ⟨F64.zero, F64.zero, F64.zero⟩)
  else l

/-- `Species::add_correct` (`mask_genes.rs:78-81`); after `touch` the slot is
always set, so the `none` arm (the `expect` in `Species::get`) is
unreachable. -/
def add_correct (s : Species) (g : Nat) (inc : F64) : Species :=
  let l := touch s.leaks g
  match l.getD g none with
  | some lk => ⟨s.id, l.set g (some ⟨F64.add lk.correct inc, lk.incoming, lk.outgoing⟩)⟩
  | none => ⟨s.id, l⟩

/-- `Species::add_incorrect` (`mask_genes.rs:83-86`). -/
def add_incorrect (s : Species) (g : Nat) (isIncoming : Bool) (inc : F64) : Species :=
  let l := touch s.leaks g
  match l.getD g none with
  | some lk =>
    if isIncoming then ⟨s.id, l.set g (some ⟨lk.correct, F64.add lk.incoming inc, lk.outgoing⟩)⟩
    else ⟨s.id, l.set g (some ⟨lk.correct, lk.incoming, F64.add lk.outgoing inc⟩)⟩
  | none => ⟨s.id, l⟩

/-- The "leaked" predicate of a slot: set with `incoming > threshold`. -/
def leakedAt (t : F64) : Option Leaks → Bool
  | some lk => F64.lt t lk.incoming
  | none => false

/-- `Species::num_genes` (`mask_genes.rs:88-90`). -/
def num_genes (s : Species) : Nat := (s.leaks.filter (fun x => x.isSome)).length

/-- `Species::num_leaked_on_genes` (`mask_genes.rs:92-98`). -/
def num_leaked_on_genes (s : Species) (t : F64) : Nat :=
  (s.leaks.filter (leakedAt t)).length

/-- `Species::total_incoming_leaks` (`mask_genes.rs:100-106`); the filtered
slots are all set, so the `unwrap` arm for `none` is unreachable. -/
def total_incoming_leaks (s : Species) (t : F64) : F64 :=
  (s.leaks.filter (leakedAt t)).foldl
    (fun acc x => F64.add acc (match x with | some lk => lk.incoming | none => F64.zero))
    F64.zero

/-- `Species::num_good_genes` (`mask_genes.rs:108-110`): `usize`
subtraction. -/
def num_good_genes (s : Species) (t : F64) : Nat :=
  s.num_genes - s.num_leaked_on_genes t

end Species

/-- `struct GeneLeaks` (`mask_genes.rs:114-116`): the per-taxon map as an
association list in insertion order. -/
structure GeneLeaks where
  species : List (Nat × Species)
deriving DecidableEq, Repr

/-- `self.species.entry(species).or_insert(Species::new(species))` followed
by a mutation `f`. -/
def updateSpecies : List (Nat × Species) → Nat → (Species → Species) →
    List (Nat × Species)
  | [], tid, f => [(tid, f (Species.new tid))]
  | (t, s) :: rest, tid, f =>
    if t = tid then (t, f s) :: rest else (t, s) :: updateSpecies rest tid f

namespace GeneLeaks

/-- `GeneLeaks::count_correct` (`mask_genes.rs:132-135`). -/
def count_correct (gl : GeneLeaks) (tid g : Nat) (inc : F64) : GeneLeaks :=
  ⟨updateSpecies gl.species tid (fun s => s.add_correct g inc)⟩

/-- `GeneLeaks::count_incorrect` (`mask_genes.rs:137-140`). -/
def count_incorrect (gl : GeneLeaks) (tid g : Nat) (isIncoming : Bool) (inc : F64) : GeneLeaks :=
  ⟨updateSpecies gl.species tid (fun s => s.add_incorrect g isIncoming inc)⟩

/-- The two-component ranking key of `GeneLeaks::top_incoming`
(`mask_genes.rs:145`): `(-(num_leaked as isize), -(total_incoming as isize))`. -/
def rankKey (s : Species) : Int × Int :=
  (-(s.num_leaked_on_genes (F64.finite 0) : Int),
   -(F64.toIsize (s.total_incoming_leaks (F64.finite 0))))

/-- Rust tuple order (lexicographic) on the ranking key. -/
def keyLe (a b : Int × Int) : Bool :=
  a.1 < b.1 || (a.1 == b.1 && a.2 ≤ b.2)

/-- `GeneLeaks::top_incoming` (`mask_genes.rs:142-148`): a stable sort of the
map's entries (iteration order) by the two-component key; no further
tie-breaking. -/
def top_incoming (gl : GeneLeaks) : List (Nat × Species) :=
  gl.species.mergeSort (fun a b => keyLe (rankKey a.2) (rankKey b.2))

end GeneLeaks

/-!
## The fractional (read-level normalized) scheme (`src/bin/mask_genes.rs`)
-/
/-- Per-taxon per-gene read totals, keyed by taxon. -/
def lookupTotals : List (Nat × List (Option Nat)) → Nat → Option (List (Option Nat))
  | [], _ => none
  | (t, v) :: rest, tid => if t = tid then some v else lookupTotals rest tid

/-- The init-then-bump step of `get_species_total` (`mask_genes.rs:166-171`)
on one taxon's vector. -/
def bumpTotal (l : List (Option Nat)) (g : Nat) : List (Option Nat) :=
  let l' := if l.length ≤ g ∨ l.getD g none = none
            then (resizeWith l (g + 1)).set g (some 0) else l
  l'.set g (some ((l'.getD g none).getD 0 + 1))

/-- `result.entry(query_tid).or_insert(Vec::default())` then the bump. -/
def updateTotals : List (Nat × List (Option Nat)) → Nat → Nat →
    List (Nat × List (Option Nat))
  | [], tid, g => [(tid, bumpTotal [] g)]
  | (t, v) :: rest, tid, g =>
    if t = tid then (t, bumpTotal v g) :: rest
    else (t, v) :: updateTotals rest tid g

/-- `get_species_total` (`mask_genes.rs:153-175`): first streaming pass;
`none` models the `expect` panic on an unparseable query name. -/
def get_species_total (minMapq : Nat) (records : List Sam) :
    Option (List (Nat × List (Option Nat))) :=
  records.foldlM
    (fun m sam =>
      if !sam.is_aligned || sam.mapq < minMapq then some m
      else
        match taxid_geneid sam.qname with
        | none => none
        | some (tid, gid) => some (updateTotals m tid gid))
    []

/-- `qt[gid].unwrap()`: `none` models both the out-of-bounds indexing panic
and the `unwrap`-of-`None` panic. -/
def vecIndexUnwrap (v : List (Option Nat)) (i : Nat) : Option Nat :=
  if i < v.length then v.getD i none else none

/-- One loop iteration of `get_normalized_gene_leaks`
(`mask_genes.rs:183-210`).  Faithfully reproduces the source's `ref_total`
computation, which scrutinizes `qt` — the QUERY taxon's totals — instead of
`rt` (`mask_genes.rs:198-201`), and divides `1.0` by the totals with no
special case for zero. -/
def normStep (minMapq : Nat) (totals : List (Nat × List (Option Nat)))
    (acc : GeneLeaks) (sam : Sam) : Option GeneLeaks :=
  if !sam.is_aligned || sam.mapq < minMapq then some acc
  else
    match taxid_geneid sam.qname, taxid_geneid sam.rname with
    | some (query_tid, query_gid), some (ref_tid, ref_gid) =>
      let qt := lookupTotals totals query_tid
      match (match qt with
             | some v => vecIndexUnwrap v query_gid
             | none => some 0) with
      | none => none
      | some query_total =>
        match (match qt with
               | some v => vecIndexUnwrap v ref_gid
               | none => some 0) with
        | none => none
        | some ref_total =>
          if query_tid = ref_tid ∧ query_gid = ref_gid then
            some (acc.count_correct query_tid query_gid
              (F64.div (F64.finite 1) (F64.ofInt query_total)))
          else
            some ((acc.count_incorrect ref_tid ref_gid true
                (F64.div (F64.finite 1) (F64.ofInt query_total))).count_incorrect
              query_tid query_gid false
              (F64.div (F64.finite 1) (F64.ofInt ref_total)))
    | _, _ => none

/-- `get_normalized_gene_leaks` (`mask_genes.rs:177-214`): second streaming
pass over the records against the precomputed totals. -/
def get_normalized_gene_leaks (minMapq : Nat) (records : List Sam)
    (totals : List (Nat × List (Option Nat))) : Option GeneLeaks :=
  records.foldlM (normStep minMapq totals) ⟨[]⟩

namespace GeneLeaks

/-- The comparator of `top_incoming` on two map entries. -/
def entryLe (a b : Nat × Species) : Bool := keyLe (rankKey a.2) (rankKey b.2)

end GeneLeaks

/-! ## Theorems -/

namespace Genes

theorem slotD_growTo (l : List Int) (g j : Nat) :
    slotD (growTo l g) j = slotD l j := by
  unfold growTo slotD
  split
  · rfl
  · simp only [List.getD_eq_getElem?_getD]
    rcases lt_or_le j l.length with h | h
    · rw [List.getElem?_append_left h]
    · rw [List.getElem?_append_right h, List.getElem?_eq_none h,
        List.getElem?_replicate]
      split <;> rfl

theorem length_growTo (l : List Int) (g : Nat) :
    (growTo l g).length = max l.length (g + 1) := by
  unfold growTo
  split <;> simp <;> omega

theorem lt_length_growTo (l : List Int) (g : Nat) :
    g < (growTo l g).length := by
  rw [length_growTo]; omega

theorem slotD_set (l : List Int) (j : Nat) (v : Int) (i : Nat) :
    slotD (l.set j v) i =
      if j = i ∧ j < l.length then v else slotD l i := by
  unfold slotD
  simp only [List.getD_eq_getElem?_getD, List.getElem?_set]
  by_cases h : j = i
  · subst h
    by_cases h' : j < l.length
    · simp [h']
    · simp only [h', and_false, if_false, if_pos rfl, if_neg h']
      rw [List.getElem?_eq_none (le_of_not_lt h')]
      rfl
  · simp [h]

theorem slotD_of_length_le (l : List Int) (j : Nat) (h : l.length ≤ j) :
    slotD l j = -1 := by
  unfold slotD
  rw [List.getD_eq_getElem?_getD, List.getElem?_eq_none h]
  rfl

theorem slotD_increment (g : Genes) (gene j : Nat) :
    slotD (g.increment gene).data j =
      if gene = j then norm (slotD g.data gene) + 1 else slotD g.data j := by
  unfold increment norm
  simp only
  rw [slotD_set]
  by_cases h : gene = j
  · subst h
    have hlt := lt_length_growTo g.data gene
    simp [hlt, slotD_growTo]
  · simp [h, slotD_growTo]

theorem length_increment (g : Genes) (gene : Nat) :
    (g.increment gene).data.length = max g.data.length (gene + 1) := by
  unfold increment
  simp [List.length_set, length_growTo]

theorem wf_iff_slotD (g : Genes) :
    WF g ↔ ∀ j, slotD g.data j = -1 ∨ 0 < slotD g.data j := by
  constructor
  · intro h j
    rcases lt_or_le j g.data.length with hj | hj
    · have heq : slotD g.data j = g.data.get ⟨j, hj⟩ := by
        unfold slotD
        rw [List.getD_eq_getElem?_getD, List.getElem?_eq_getElem hj]
        rfl
      rw [heq]
      exact h _ (g.data.get_mem j hj)
    · left; exact slotD_of_length_le _ _ hj
  · intro h x hx
    obtain ⟨j, hj, rfl⟩ := List.mem_iff_getElem.mp hx
    have := h j
    unfold slotD at this
    rwa [List.getD_eq_getElem?_getD, List.getElem?_eq_getElem hj] at this

theorem wf_empty : WF ⟨[]⟩ := by
  intro x hx; cases hx

theorem wf_increment (g : Genes) (gene : Nat) (h : WF g) :
    WF (g.increment gene) := by
  rw [wf_iff_slotD] at h ⊢
  intro j
  rw [slotD_increment]
  split
  · right
    unfold norm
    rcases h gene with h' | h'
    · rw [h']; simp
    · rw [if_neg (by omega)]; omega
  · exact h j

theorem slotD_ge_neg_one_of_wf (g : Genes) (h : WF g) (j : Nat) :
    -1 ≤ slotD g.data j := by
  rw [wf_iff_slotD] at h
  rcases h j with h' | h' <;> omega

theorem get_eq_none_iff (g : Genes) (gene : Nat) :
    g.get gene = none ↔ g.data.length ≤ gene := by
  unfold get
  split
  · simp only
    constructor
    · intro h
      split at h <;> cases h
    · omega
  · simp only [true_iff]
    omega

theorem norm_of_ne_sentinel (x : Int) (h : x ≠ -1) : norm x = x := by
  unfold norm; rw [if_neg h]

theorem norm_nonneg_of (x : Int) (h : -1 ≤ x) : 0 ≤ norm x := by
  unfold norm; split <;> omega

theorem slotD_foldl_increment (gs : List Nat) :
    ∀ (c : Genes) (j : Nat), -1 ≤ slotD c.data j →
      slotD (gs.foldl increment c).data j =
        if gs.count j = 0 then slotD c.data j
        else norm (slotD c.data j) + gs.count j := by
  induction gs with
  | nil => intro c j _; simp
  | cons a rest ih =>
    intro c j hj
    simp only [List.foldl_cons]
    by_cases h : j = a
    · subst h
      have hslot : slotD (c.increment j).data j = norm (slotD c.data j) + 1 := by
        rw [slotD_increment]; simp
      have hn := norm_nonneg_of _ hj
      have hge : -1 ≤ slotD (c.increment j).data j := by rw [hslot]; omega
      rw [ih _ j hge, hslot]
      have hcc : List.count j (j :: rest) = rest.count j + 1 := by
        simp [List.count_cons]
      have hne : ¬(List.count j rest + 1 = 0) := by omega
      rw [hcc, if_neg hne]
      by_cases hc : rest.count j = 0
      · rw [if_pos hc, hc]
        push_cast
        ring
      · rw [if_neg hc, norm_of_ne_sentinel (norm (slotD c.data j) + 1) (by omega)]
        push_cast
        ring
    · have hslot : slotD (c.increment a).data j = slotD c.data j := by
        rw [slotD_increment, if_neg (by omega)]
      have hge : -1 ≤ slotD (c.increment a).data j := by rw [hslot]; exact hj
      rw [ih _ j hge, hslot]
      have hcc : List.count j (a :: rest) = rest.count j := by
        simp [List.count_cons, Ne.symm h]
      rw [hcc]

theorem length_le_foldl_increment (gs : List Nat) :
    ∀ c : Genes, c.data.length ≤ (gs.foldl increment c).data.length := by
  induction gs with
  | nil => intro c; simp
  | cons a rest ih =>
    intro c
    simp only [List.foldl_cons]
    calc c.data.length ≤ (c.increment a).data.length := by
          rw [length_increment]; omega
      _ ≤ _ := ih _

theorem mem_lt_length_foldl_increment (gs : List Nat) :
    ∀ (c : Genes) (a : Nat), a ∈ gs →
      a < (gs.foldl increment c).data.length := by
  induction gs with
  | nil => intro _ _ h; cases h
  | cons b rest ih =>
    intro c a ha
    simp only [List.foldl_cons]
    rcases List.mem_cons.mp ha with rfl | ha
    · calc a < (c.increment a).data.length := by rw [length_increment]; omega
        _ ≤ _ := length_le_foldl_increment _ _
    · exact ih _ _ ha

end Genes

/-- C6 (counterexample): on an empty Sparse Gene Counter — zero `increment`
calls — `get 0` hits the out-of-bounds indexing `self.data[gene]` and panics
(`none` in the model) instead of returning the normalized absence `None`. -/
theorem get_on_empty_counter_panics :
    (([] : List Nat).foldl Genes.increment ⟨[]⟩).get 0 = none ∧
    (([] : List Nat).foldl Genes.increment ⟨[]⟩).get 0 ≠ some none := by
  decide

/-- C6 (amended): after any finite sequence `gs` of `increment` calls on an
initially empty Sparse Gene Counter, `get g` (1) panics exactly when `g` lies
at or beyond the counter's allocated length, (2) returns `Some n` with `n`
the number of increments to `g` whenever `n ≥ 1`, and (3) returns the
normalized absence `None` — never `Some 0` — when `g` was never incremented
but lies within the allocated length. -/
theorem get_after_increment_seq (gs : List Nat) (g : Nat) :
    ((gs.foldl Genes.increment ⟨[]⟩).get g = none ↔
      (gs.foldl Genes.increment ⟨[]⟩).data.length ≤ g) ∧
    (0 < gs.count g →
      (gs.foldl Genes.increment ⟨[]⟩).get g = some (some (gs.count g))) ∧
    (gs.count g = 0 → g < (gs.foldl Genes.increment ⟨[]⟩).data.length →
      (gs.foldl Genes.increment ⟨[]⟩).get g = some none) := by
  have hslot := Genes.slotD_foldl_increment gs ⟨[]⟩ g (by unfold Genes.slotD; simp)
  have hempty : Genes.slotD (Genes.mk []).data g = -1 := by
    unfold Genes.slotD; simp
  rw [hempty] at hslot
  refine ⟨Genes.get_eq_none_iff _ _, ?_, ?_⟩
  · intro hc
    have hmem : g ∈ gs := List.count_pos_iff.mp hc
    have hlt := Genes.mem_lt_length_foldl_increment gs ⟨[]⟩ g hmem
    have hval : Genes.slotD (gs.foldl Genes.increment ⟨[]⟩).data g = gs.count g := by
      rw [hslot, if_neg (by omega)]
      unfold Genes.norm
      simp
    unfold Genes.get
    rw [if_pos hlt]
    simp only [hval]
    rw [if_neg (by omega)]
    simp
  · intro hc hlt
    have hval : Genes.slotD (gs.foldl Genes.increment ⟨[]⟩).data g = -1 := by
      rw [hslot, if_pos hc]
    unfold Genes.get
    rw [if_pos hlt]
    simp [hval]

/-- Witness for C6's amended theorem at concrete inputs. -/
theorem get_after_increment_seq_witness :
    (([2, 2] : List Nat).foldl Genes.increment ⟨[]⟩).get 2 = some (some 2) ∧
    (([2] : List Nat).foldl Genes.increment ⟨[]⟩).get 0 = some none ∧
    (([2] : List Nat).foldl Genes.increment ⟨[]⟩).get 5 = none := by
  refine ⟨?_, ?_, ?_⟩
  · have h := (get_after_increment_seq [2, 2] 2).2.1 (by decide)
    simpa using h
  · exact (get_after_increment_seq [2] 0).2.2 (by decide) (by decide)
  · exact (get_after_increment_seq [2] 5).1.mpr (by decide)

namespace Genes

/-- Either a slot read is the sentinel, or it is a member of the list. -/
theorem slotD_mem (l : List Int) (j : Nat) : slotD l j = -1 ∨ slotD l j ∈ l := by
  rcases lt_or_le j l.length with hj | hj
  · right
    have heq : slotD l j = l.get ⟨j, hj⟩ := by
      unfold slotD
      rw [List.getD_eq_getElem?_getD, List.getElem?_eq_getElem hj]
      rfl
    rw [heq]
    exact l.get_mem j hj
  · left; exact slotD_of_length_le _ _ hj

theorem slotD_nil (j : Nat) : slotD [] j = -1 := rfl

theorem slotD_cons_zero (c : Int) (rest : List Int) : slotD (c :: rest) 0 = c := rfl

theorem slotD_cons_succ (c : Int) (rest : List Int) (k : Nat) :
    slotD (c :: rest) (k + 1) = slotD rest k := rfl

theorem setLen_cons (c : Int) (rest : List Int) :
    setLen (c :: rest) =
      if setLen rest = 0 then (if c = -1 then 0 else 1) else setLen rest + 1 := rfl

theorem slotD_of_setLen_le (l : List Int) : ∀ j, setLen l ≤ j → slotD l j = -1 := by
  induction l with
  | nil => intro j _; rfl
  | cons c rest ih =>
    intro j hj
    unfold setLen at hj
    match j with
    | 0 =>
      split at hj
      · split at hj
        · assumption
        · omega
      · omega
    | k + 1 =>
      rw [slotD_cons_succ]
      apply ih
      split at hj <;> omega

theorem slotD_setLen_sub_one (l : List Int) :
    ∀ n, setLen l = n + 1 → slotD l n ≠ -1 := by
  induction l with
  | nil => intro n h; simp [setLen] at h
  | cons c rest ih =>
    intro n h
    unfold setLen at h
    split at h
    · split at h
      · omega
      · have : n = 0 := by omega
        subst this
        rwa [slotD_cons_zero]
    · have hn : setLen rest = n := by omega
      match n, hn with
      | k + 1, hn =>
        rw [slotD_cons_succ]
        exact ih k hn
      | 0, hn => omega

theorem setLen_le_of (l : List Int) (n : Nat)
    (h : ∀ j, n ≤ j → slotD l j = -1) : setLen l ≤ n := by
  by_contra hlt
  have h1 : setLen l = (setLen l - 1) + 1 := by omega
  have h2 := slotD_setLen_sub_one l _ h1
  exact h2 (h _ (by omega))

theorem lt_setLen_of_ne (l : List Int) (j : Nat) (h : slotD l j ≠ -1) :
    j < setLen l := by
  by_contra hle
  exact h (slotD_of_setLen_le l j (by omega))

theorem setLen_eq_max_of (l b c : List Int)
    (h : ∀ j, slotD l j = -1 ↔ (slotD b j = -1 ∧ slotD c j = -1)) :
    setLen l = max (setLen b) (setLen c) := by
  apply le_antisymm
  · apply setLen_le_of
    intro j hj
    rw [h j]
    exact ⟨slotD_of_setLen_le b j (by omega), slotD_of_setLen_le c j (by omega)⟩
  · rw [Nat.max_le]
    constructor
    · rcases Nat.eq_zero_or_pos (setLen b) with hb | hb
      · omega
      · have h1 : setLen b = (setLen b - 1) + 1 := by omega
        have h2 := slotD_setLen_sub_one b _ h1
        have h3 : slotD l (setLen b - 1) ≠ -1 := by
          intro hcon
          exact h2 ((h _).mp hcon).1
        have := lt_setLen_of_ne l _ h3
        omega
    · rcases Nat.eq_zero_or_pos (setLen c) with hc | hc
      · omega
      · have h1 : setLen c = (setLen c - 1) + 1 := by omega
        have h2 := slotD_setLen_sub_one c _ h1
        have h3 : slotD l (setLen c - 1) ≠ -1 := by
          intro hcon
          exact h2 ((h _).mp hcon).2
        have := lt_setLen_of_ne l _ h3
        omega

theorem total_eq_totalL (g : Genes) : g.total = totalL g.data := rfl

theorem foldl_add_shift (f : Int → Nat) (l : List Int) :
    ∀ n : Nat, l.foldl (fun acc x => acc + f x) n = n + (l.map f).sum := by
  induction l with
  | nil => intro n; simp
  | cons c rest ih =>
    intro n
    simp only [List.foldl_cons, List.map_cons, List.sum_cons]
    rw [ih]
    omega

theorem totalL_eq_sum (l : List Int) :
    totalL l = (l.map (fun x => (max x 0).toNat)).sum := by
  unfold totalL
  rw [foldl_add_shift]
  omega

theorem totalL_cons (c : Int) (rest : List Int) :
    totalL (c :: rest) = (max c 0).toNat + totalL rest := by
  rw [totalL_eq_sum, totalL_eq_sum, List.map_cons, List.sum_cons]

theorem totalL_append (l l' : List Int) :
    totalL (l ++ l') = totalL l + totalL l' := by
  rw [totalL_eq_sum, totalL_eq_sum, totalL_eq_sum, List.map_append, List.sum_append]

theorem totalL_replicate_sentinel (n : Nat) :
    totalL (List.replicate n (-1)) = 0 := by
  rw [totalL_eq_sum, List.map_replicate]
  simp

theorem totalL_growTo (l : List Int) (g : Nat) :
    totalL (growTo l g) = totalL l := by
  unfold growTo
  split
  · rfl
  · rw [totalL_append, totalL_replicate_sentinel]
    omega

theorem sum_set_nat (l : List Nat) : ∀ (j : Nat) (v : Nat), j < l.length →
    (l.set j v).sum + l.getD j 0 = l.sum + v := by
  induction l with
  | nil => intro j v h; simp at h
  | cons c rest ih =>
    intro j v h
    match j with
    | 0 => simp [List.set]; omega
    | k + 1 =>
      simp only [List.set, List.sum_cons, List.getD_cons_succ]
      have := ih k v (by simpa using h)
      omega

theorem totalL_set (l : List Int) (j : Nat) (v : Int) (h : j < l.length) :
    totalL (l.set j v) + (max (slotD l j) 0).toNat = totalL l + (max v 0).toNat := by
  rw [totalL_eq_sum, totalL_eq_sum, List.map_set]
  have hlen : j < (l.map (fun x => (max x 0).toNat)).length := by simpa using h
  have hsum := sum_set_nat (l.map (fun x => (max x 0).toNat)) j ((max v 0).toNat) hlen
  have hget : (l.map (fun x => (max x 0).toNat)).getD j 0 = (max (slotD l j) 0).toNat := by
    rw [List.getD_eq_getElem?_getD, List.getElem?_map]
    unfold slotD
    rw [List.getD_eq_getElem?_getD, List.getElem?_eq_getElem h]
    rfl
  rw [hget] at hsum
  omega

theorem srcAt_cons (c : Int) (rest : List Int) (g0 j : Nat) :
    srcAt (c :: rest) g0 j = if j = g0 then c else srcAt rest (g0 + 1) j := by
  unfold srcAt
  by_cases h : j = g0
  · subst h
    simp [slotD_cons_zero]
  · by_cases h2 : g0 ≤ j
    · have h3 : g0 + 1 ≤ j := by omega
      rw [if_pos h2, if_neg h, if_pos h3]
      have h4 : j - g0 = (j - (g0 + 1)) + 1 := by omega
      rw [h4, slotD_cons_succ]
    · rw [if_neg h2, if_neg h, if_neg (by omega)]

theorem srcAt_zero (src : List Int) (j : Nat) : srcAt src 0 j = slotD src j := by
  unfold srcAt
  simp

/-- Slots the merge loop reads from `src` are list members or the sentinel. -/
theorem srcAt_mem (src : List Int) (g0 j : Nat) :
    srcAt src g0 j = -1 ∨ srcAt src g0 j ∈ src := by
  unfold srcAt
  split
  · exact slotD_mem src (j - g0)
  · left; rfl

/-- Core characterization of `Genes::merge_from`'s loop: on a source whose
set slots are strictly positive and a target with no slot below the
sentinel, the loop succeeds (no assertion fires), its result adds the
source pointwise on set slots, and its length grows exactly to cover the
source's last set slot. -/
theorem mergeFromGo_char (src : List Int) :
    ∀ (t : List Int) (g0 : Nat),
      (∀ x ∈ src, x = -1 ∨ 0 < x) → (∀ j, -1 ≤ slotD t j) →
      ∃ r, mergeFromGo t src g0 = some r ∧
        (∀ j, slotD r j =
          if srcAt src g0 j = -1 then slotD t j
          else norm (slotD t j) + srcAt src g0 j) ∧
        r.length = (if setLen src = 0 then t.length
                    else max t.length (g0 + setLen src)) := by
  induction src with
  | nil =>
    intro t g0 _ _
    refine ⟨t, rfl, ?_, ?_⟩
    · intro j
      rw [if_pos]
      unfold srcAt
      split <;> rfl
    · simp [setLen]
  | cons c rest ih =>
    intro t g0 hsrc ht
    by_cases hc : c = -1
    · subst hc
      obtain ⟨r, hr, hslot, hlen⟩ :=
        ih t (g0 + 1) (fun x hx => hsrc x (List.mem_cons_of_mem _ hx)) ht
      refine ⟨r, ?_, ?_, ?_⟩
      · unfold mergeFromGo
        rw [if_pos rfl]
        exact hr
      · intro j
        rw [hslot j, srcAt_cons]
        by_cases hj : j = g0
        · subst hj
          have : srcAt rest (j + 1) j = -1 := by
            unfold srcAt
            rw [if_neg (by omega)]
          simp [this]
        · rw [if_neg hj]
      · rw [hlen]
        have hsl : setLen ((-1 : Int) :: rest) =
            if setLen rest = 0 then 0 else setLen rest + 1 := by
          rw [setLen_cons]
          simp
        rw [hsl]
        by_cases h0 : setLen rest = 0
        · simp [h0]
        · rw [if_neg h0, if_neg h0, if_neg (by omega)]
          omega
    · have hcpos : 0 < c := by
        rcases hsrc c (List.mem_cons_self _ _) with h | h
        · exact absurd h hc
        · exact h
      have hcur := ht g0
      set d := growTo t g0 with hd
      have hdcur : slotD d g0 = slotD t g0 := slotD_growTo t g0 g0
      have hglt : g0 < d.length := lt_length_growTo t g0
      set v : Int := (if slotD t g0 = -1 then 0 else slotD t g0) + c with hv
      have hvpos : 0 < v := by
        rw [hv]
        split <;> omega
      set t' := d.set g0 v with ht'
      have ht'slot : ∀ j, slotD t' j = if j = g0 then v else slotD t j := by
        intro j
        rw [ht', slotD_set]
        by_cases hj : g0 = j
        · subst hj
          rw [if_pos ⟨rfl, hglt⟩, if_pos rfl]
        · rw [if_neg (by simp [hj]), if_neg (by omega), hd, slotD_growTo]
      have ht'ge : ∀ j, -1 ≤ slotD t' j := by
        intro j
        rw [ht'slot j]
        split
        · omega
        · exact ht j
      have ht'len : t'.length = max t.length (g0 + 1) := by
        rw [ht', List.length_set, hd, length_growTo]
      obtain ⟨r, hr, hslot, hlen⟩ :=
        ih t' (g0 + 1) (fun x hx => hsrc x (List.mem_cons_of_mem _ hx)) ht'ge
      refine ⟨r, ?_, ?_, ?_⟩
      · unfold mergeFromGo
        rw [if_neg hc, if_neg (by omega), if_neg (by rw [hdcur]; omega)]
        rw [hdcur]
        exact hr
      · intro j
        rw [hslot j, srcAt_cons]
        by_cases hj : j = g0
        · subst hj
          have hna : srcAt rest (j + 1) j = -1 := by
            unfold srcAt
            rw [if_neg (by omega)]
          rw [hna, if_pos rfl, if_pos rfl, if_neg (by omega), ht'slot j,
            if_pos rfl, hv]
          unfold norm
          rfl
        · rw [if_neg hj]
          have ht'j : slotD t' j = slotD t j := by
            rw [ht'slot j, if_neg hj]
          split
          · rw [ht'j]
          · rw [ht'j]
      · rw [hlen, ht'len]
        have hsl : setLen (c :: rest) =
            if setLen rest = 0 then 1 else setLen rest + 1 := by
          rw [setLen_cons, if_neg hc]
        rw [hsl]
        by_cases h0 : setLen rest = 0
        · rw [if_pos h0, if_pos h0, if_neg (by omega)]
        · rw [if_neg h0, if_neg h0, if_neg (by omega)]
          omega

/-- Totals add along the merge loop. -/
theorem mergeFromGo_total (src : List Int) :
    ∀ (t : List Int) (g0 : Nat) (r : List Int),
      (∀ x ∈ src, x = -1 ∨ 0 < x) → (∀ j, -1 ≤ slotD t j) →
      mergeFromGo t src g0 = some r →
      totalL r = totalL t + totalL src := by
  induction src with
  | nil =>
    intro t g0 r _ _ hr
    cases hr
    simp [totalL]
  | cons c rest ih =>
    intro t g0 r hsrc ht hr
    by_cases hc : c = -1
    · subst hc
      unfold mergeFromGo at hr
      rw [if_pos rfl] at hr
      have := ih t (g0 + 1) r (fun x hx => hsrc x (List.mem_cons_of_mem _ hx)) ht hr
      rw [this, totalL_cons]
      simp
    · have hcpos : 0 < c := by
        rcases hsrc c (List.mem_cons_self _ _) with h | h
        · exact absurd h hc
        · exact h
      have hcur := ht g0
      unfold mergeFromGo at hr
      rw [if_neg hc, if_neg (by omega)] at hr
      simp only at hr
      rw [slotD_growTo] at hr
      set v : Int := (if slotD t g0 = -1 then 0 else slotD t g0) + c with hv
      have hvpos : 0 < v := by
        rw [hv]; split <;> omega
      rw [if_neg (by omega)] at hr
      set d := growTo t g0 with hd
      set t' := d.set g0 v with ht'
      have ht'ge : ∀ j, -1 ≤ slotD t' j := by
        intro j
        rw [ht', slotD_set]
        split
        · omega
        · rw [hd, slotD_growTo]; exact ht j
      have hrec := ih t' (g0 + 1) r (fun x hx => hsrc x (List.mem_cons_of_mem _ hx)) ht'ge hr
      have hglt : g0 < d.length := lt_length_growTo t g0
      have hset := totalL_set d g0 v hglt
      rw [← ht'] at hset
      have hdslot : slotD d g0 = slotD t g0 := slotD_growTo t g0 g0
      have hdtot : totalL d = totalL t := totalL_growTo t g0
      rw [hdslot, hdtot] at hset
      have hkey : totalL t' = totalL t + c.toNat := by
        rcases eq_or_ne (slotD t g0) (-1) with h0 | h0
        · have hv0 : v = c := by rw [hv, if_pos h0]; ring
          have hm : (max (slotD t g0) 0).toNat = 0 := by rw [h0]; rfl
          have hm2 : (max v 0).toNat = c.toNat := by rw [hv0]; omega
          rw [hm, hm2] at hset
          omega
        · have hs0 : 0 ≤ slotD t g0 := by omega
          have hv0 : v = slotD t g0 + c := by rw [hv, if_neg h0]
          have hm : (max (slotD t g0) 0).toNat = (slotD t g0).toNat := by omega
          have hm2 : (max v 0).toNat = (slotD t g0).toNat + c.toNat := by
            rw [hv0]; omega
          rw [hm, hm2] at hset
          omega
      rw [hrec, hkey, totalL_cons]
      have hcmax : (max c 0).toNat = c.toNat := by omega
      rw [hcmax]
      omega

/-- Two slot lists with equal length and equal reads are equal. -/
theorem eq_of_slotD_eq (l1 l2 : List Int) (hlen : l1.length = l2.length)
    (h : ∀ j, slotD l1 j = slotD l2 j) : l1 = l2 := by
  apply List.ext_getElem?
  intro n
  rcases lt_or_le n l1.length with hn | hn
  · have hn2 : n < l2.length := by omega
    rw [List.getElem?_eq_getElem hn, List.getElem?_eq_getElem hn2]
    have := h n
    unfold slotD at this
    rw [List.getD_eq_getElem?_getD, List.getD_eq_getElem?_getD,
      List.getElem?_eq_getElem hn, List.getElem?_eq_getElem hn2] at this
    simpa using this
  · rw [List.getElem?_eq_none hn, List.getElem?_eq_none (by omega)]

/-- `merge_from` on well-formed counters: it succeeds, the result is
well-formed, set slots add pointwise, length covers the source's last set
slot, and totals add. -/
theorem mergeFrom_char (t o : Genes) (ht : WF t) (ho : WF o) :
    ∃ r : Genes, t.mergeFrom o = some r ∧ WF r ∧
      (∀ j, slotD r.data j =
        if slotD o.data j = -1 then slotD t.data j
        else norm (slotD t.data j) + slotD o.data j) ∧
      r.data.length = (if setLen o.data = 0 then t.data.length
                       else max t.data.length (setLen o.data)) ∧
      r.total = t.total + o.total := by
  have hge := slotD_ge_neg_one_of_wf t ht
  obtain ⟨r, hr, hslot, hlen⟩ := mergeFromGo_char o.data t.data 0 ho hge
  have htot := mergeFromGo_total o.data t.data 0 r ho hge hr
  refine ⟨⟨r⟩, ?_, ?_, ?_, ?_, ?_⟩
  · unfold mergeFrom
    rw [hr]
    rfl
  · rw [wf_iff_slotD]
    intro j
    simp only
    rw [hslot j, srcAt_zero]
    rw [wf_iff_slotD] at ho ht
    rcases ho j with ho' | ho'
    · rw [if_pos ho']
      exact ht j
    · rw [if_neg (by omega)]
      right
      have := norm_nonneg_of (slotD t.data j) (hge j)
      omega
  · intro j
    have := hslot j
    rwa [srcAt_zero] at this
  · simpa using hlen
  · rw [total_eq_totalL, total_eq_totalL, total_eq_totalL]
    simpa using htot

/-- On well-formed counters both slots of a merged result are set exactly
when one of the inputs is set, so `setLen` of the merge is the max. -/
theorem setLen_mergeFrom (t o r : Genes) (ht : WF t) (ho : WF o)
    (hr : t.mergeFrom o = some r) :
    setLen r.data = max (setLen t.data) (setLen o.data) := by
  obtain ⟨r', hr', hwf, hslot, _, _⟩ := mergeFrom_char t o ht ho
  have hrr : r = r' := by
    rw [hr] at hr'
    exact (Option.some.injEq _ _).mp hr'
  subst hrr
  apply setLen_eq_max_of r.data t.data o.data
  intro j
  rw [hslot j]
  have hge := slotD_ge_neg_one_of_wf t ht
  rw [wf_iff_slotD] at ho ht
  constructor
  · intro h
    rcases ho j with ho' | ho'
    · rw [if_pos ho'] at h
      exact ⟨h, ho'⟩
    · rw [if_neg (by omega)] at h
      have h1 := norm_nonneg_of (slotD t.data j) (hge j)
      omega
  · rintro ⟨h1, h2⟩
    rw [if_pos h2]
    exact h1

end Genes

theorem reachable_wf (g : Genes) (h : Reachable g) : Genes.WF g := by
  induction h with
  | empty => exact Genes.wf_empty
  | inc g gene _ ih => exact Genes.wf_increment g gene ih
  | merge a b c _ _ hm iha ihb =>
    obtain ⟨r, hr, hwf, _, _, _⟩ := Genes.mergeFrom_char a b iha ihb
    rw [hm] at hr
    have : c = r := (Option.some.injEq _ _).mp hr
    rw [this]
    exact hwf

/-- C10: every counter reachable from the empty counter by `increment` and
(successful) `merge_from` operations has every non-sentinel slot strictly
positive, and consequently the assertions inside `merge_from` never fail
when merging reachable counters: the merge always returns a result. -/
theorem reachable_slots_positive (g : Genes) (hg : Reachable g) :
    (∀ x ∈ g.data, x = -1 ∨ 0 < x) ∧
    ∀ b, Reachable b → (g.mergeFrom b).isSome := by
  refine ⟨reachable_wf g hg, ?_⟩
  intro b hb
  obtain ⟨r, hr, _, _, _, _⟩ :=
    Genes.mergeFrom_char g b (reachable_wf g hg) (reachable_wf b hb)
  rw [hr]
  rfl

/-- Witness for C10 at a concrete reachable counter. -/
theorem reachable_slots_positive_witness :
    (∀ x ∈ ((Genes.mk []).increment 1).data, x = -1 ∨ 0 < x) ∧
    (((Genes.mk []).increment 1).mergeFrom ((Genes.mk []).increment 0)).isSome := by
  have h := reachable_slots_positive ((Genes.mk []).increment 1)
    (Reachable.inc _ _ Reachable.empty)
  exact ⟨h.1, h.2 _ (Reachable.inc _ _ Reachable.empty)⟩

/-- Pointwise associativity of the slot-level merge arithmetic. -/
theorem norm_add_cases (A B C : Int) (hA : -1 ≤ A)
    (hB : B = -1 ∨ 0 < B) (hC : C = -1 ∨ 0 < C) :
    (if C = -1 then (if B = -1 then A else Genes.norm A + B)
     else Genes.norm (if B = -1 then A else Genes.norm A + B) + C) =
    (if (if C = -1 then B else Genes.norm B + C) = -1 then A
     else Genes.norm A + (if C = -1 then B else Genes.norm B + C)) := by
  unfold Genes.norm
  rcases hB with hB | hB <;> rcases hC with hC | hC
  · subst hB
    subst hC
    simp
  · subst hB
    have hCne : C ≠ -1 := by omega
    simp [hCne]
  · subst hC
    have hBne : B ≠ -1 := by omega
    simp [hBne]
  · have hBne : B ≠ -1 := by omega
    have hCne : C ≠ -1 := by omega
    have haux1 : ¬((if A = -1 then 0 else A) + B = -1) := by
      split <;> omega
    have haux2 : ¬((if B = -1 then 0 else B) + C = -1) := by
      split <;> omega
    simp only [if_neg hBne, if_neg hCne, if_neg haux1, if_neg haux2]
    rw [if_neg (show ¬(B + C = -1) by omega)]
    ring

/-- C7: on well-formed Sparse Gene Counters (the invariant of every counter
reachable through the API, claim C10), `a.merge_from(b)` succeeds and the
merged total equals `a.total() + b.total()`; and the merge is elementwise
associative: merging `b` then `c` into `a` yields exactly the same counter
as merging `(b merged with c)` into `a`. -/
theorem merge_total_and_assoc (a b c : Genes)
    (ha : Genes.WF a) (hb : Genes.WF b) (hc : Genes.WF c) :
    ∃ ab abc bc abc', a.mergeFrom b = some ab ∧ ab.mergeFrom c = some abc ∧
      b.mergeFrom c = some bc ∧ a.mergeFrom bc = some abc' ∧
      ab.total = a.total + b.total ∧ abc = abc' := by
  obtain ⟨ab, hab, habwf, habslot, hablen, habtot⟩ := Genes.mergeFrom_char a b ha hb
  obtain ⟨abc, habc, habcwf, habcslot, habclen, _⟩ := Genes.mergeFrom_char ab c habwf hc
  obtain ⟨bc, hbc, hbcwf, hbcslot, hbclen, _⟩ := Genes.mergeFrom_char b c hb hc
  obtain ⟨abc', habc', _, habcslot', habclen', _⟩ := Genes.mergeFrom_char a bc ha hbcwf
  refine ⟨ab, abc, bc, abc', hab, habc, hbc, habc', habtot, ?_⟩
  have hsetbc : Genes.setLen bc.data = max (Genes.setLen b.data) (Genes.setLen c.data) :=
    Genes.setLen_mergeFrom b c bc hb hc hbc
  have hdata : abc.data = abc'.data := by
    apply Genes.eq_of_slotD_eq
    · rw [habclen, habclen', hablen, hsetbc]
      split_ifs <;> omega
    · intro j
      rw [habcslot j, habcslot' j, habslot j, hbcslot j]
      exact norm_add_cases _ _ _ (Genes.slotD_ge_neg_one_of_wf a ha j)
        ((Genes.wf_iff_slotD b).mp hb j) ((Genes.wf_iff_slotD c).mp hc j)
  rcases abc with ⟨d1⟩
  rcases abc' with ⟨d2⟩
  simp only [Genes.mk.injEq]
  exact hdata

/-- Witness for C7 at concrete well-formed counters. -/
theorem merge_total_and_assoc_witness :
    (Genes.mk [1]).mergeFrom ⟨[-1, 2]⟩ = some ⟨[1, 2]⟩ ∧
    (Genes.mk [1, 2]).total = (Genes.mk [1]).total + (Genes.mk [-1, 2]).total := by
  obtain ⟨ab, abc, bc, abc', h1, h2, h3, h4, h5, h6⟩ :=
    merge_total_and_assoc ⟨[1]⟩ ⟨[-1, 2]⟩ ⟨[3]⟩ (by decide) (by decide) (by decide)
  have hcomp : (Genes.mk [1]).mergeFrom ⟨[-1, 2]⟩ = some ⟨[1, 2]⟩ := by decide
  rw [hcomp] at h1
  have hab : Genes.mk [1, 2] = ab := (Option.some.injEq _ _).mp h1
  refine ⟨hcomp, ?_⟩
  rw [hab]
  exact h5

theorem loadFields_saveFields (fromT toT : Nat) (g : Genes)
    (h1 : fromT < 2 ^ 32) (h2 : toT < 2 ^ 32) (hwf : Genes.WF g) :
    loadFields (saveFields fromT toT g) =
      some ((fromT, toT), Genes.mk (g.data.drop 1)) := by
  unfold loadFields saveFields
  have hlen : ¬(((fromT : Int) :: (toT : Int) :: (g.total : Int) :: g.data.drop 1).length < 3) := by
    simp
  rw [if_neg hlen]
  have hall : (((fromT : Int) :: (toT : Int) :: (g.total : Int) :: g.data.drop 1).drop 3).all
      (fun x => x != 0) = true := by
    simp only [List.drop_succ_cons, List.drop_zero]
    rw [List.all_eq_true]
    intro x hx
    have hmem : x ∈ g.data := List.mem_of_mem_drop hx
    rcases hwf x hmem with h | h <;> simp <;> omega
  rw [if_pos hall]
  have hf : (((fromT : Int) :: (toT : Int) :: (g.total : Int) :: g.data.drop 1).getD 0 0) % (2 ^ 32) = (fromT : Int) := by
    simp only [List.getD_cons_zero]
    rw [Int.emod_eq_of_lt (Int.natCast_nonneg _) (by exact_mod_cast h1)]
  have ht : (((fromT : Int) :: (toT : Int) :: (g.total : Int) :: g.data.drop 1).getD 1 0) % (2 ^ 32) = (toT : Int) := by
    simp only [List.getD_cons_succ, List.getD_cons_zero]
    rw [Int.emod_eq_of_lt (Int.natCast_nonneg _) (by exact_mod_cast h2)]
  rw [hf, ht]
  simp [Genes.from_slice]

/-- C2 (counterexample): a table entry `(1, 2) -> Genes [-1, 2]` (gene 0
unset, gene 1 holding 2) is written as the fields `1, 2, 2, 2` and reloads
as `Genes [2]`: gene 0 is now set to 2 while it was unset in the original,
so the round trip is not identity on per-gene set/unset state. -/
theorem save_load_not_identity :
    loadFields (saveFields 1 2 ⟨[-1, 2]⟩) = some ((1, 2), ⟨[2]⟩) ∧
    (Genes.mk [2]).get 0 ≠ (Genes.mk [-1, 2]).get 0 ∧
    (Genes.mk [2]).get 1 ≠ (Genes.mk [-1, 2]).get 1 := by
  refine ⟨by decide, by decide, by decide⟩

/-- C2 (amended): reloading a written Pairwise Leak Table reproduces the
pair keys exactly, but every counter comes back with its gene indices
shifted down by one — loaded slot `i` holds the original slot `i + 1`, and
the original slot 0 is dropped — provided every key fits in `u32`, every
counter is well-formed (so the nonzero assertion passes) and has at least
two slots (so the emitted field list is well-formed). -/
theorem load_of_save_shifts (entries : List ((Nat × Nat) × Genes))
    (h : ∀ e ∈ entries, e.1.1 < 2 ^ 32 ∧ e.1.2 < 2 ^ 32 ∧
          Genes.WF e.2 ∧ 2 ≤ e.2.data.length) :
    loadTable (saveTable entries) =
      some (entries.map (fun e => (e.1, Genes.mk (e.2.data.drop 1)))) ∧
    ∀ (g : Genes) (i : Nat),
      Genes.slotD (g.data.drop 1) i = Genes.slotD g.data (i + 1) := by
  constructor
  · induction entries with
    | nil => rfl
    | cons e rest ih =>
      obtain ⟨h1, h2, hwf, _⟩ := h e (List.mem_cons_self _ _)
      have hrest := ih (fun e' he' => h e' (List.mem_cons_of_mem _ he'))
      simp only [saveTable, List.map_cons] at hrest ⊢
      unfold loadTable
      rw [loadFields_saveFields e.1.1 e.1.2 e.2 h1 h2 hwf]
      rw [hrest]
  · intro g i
    unfold Genes.slotD
    rw [List.getD_eq_getElem?_getD, List.getD_eq_getElem?_getD, List.getElem?_drop,
      Nat.add_comm 1 i]

/-- Witness for C2's amended theorem at a concrete table. -/
theorem load_of_save_shifts_witness :
    loadTable (saveTable [((3, 4), ⟨[-1, 5, 2]⟩)]) =
      some [((3, 4), Genes.mk [5, 2])] := by
  have h := load_of_save_shifts [((3, 4), ⟨[-1, 5, 2]⟩)] (by decide)
  simpa using h.1

theorem lookupPair_cons (k' : Nat × Nat) (g : Genes)
    (rest : List ((Nat × Nat) × Genes)) (k : Nat × Nat) :
    lookupPair ((k', g) :: rest) k =
      if k' = k then some g else lookupPair rest k := rfl

theorem updateEntry_cons (k' : Nat × Nat) (g : Genes)
    (rest : List ((Nat × Nat) × Genes)) (k : Nat × Nat) (gene : Nat) :
    updateEntry ((k', g) :: rest) k gene =
      if k' = k then (k', g.increment gene) :: rest
      else (k', g) :: updateEntry rest k gene := rfl

theorem lookup_updateEntry_self (m : List ((Nat × Nat) × Genes))
    (k : Nat × Nat) (gene : Nat) :
    lookupPair (updateEntry m k gene) k =
      some (((lookupPair m k).getD ⟨[]⟩).increment gene) := by
  induction m with
  | nil => simp [updateEntry, lookupPair]
  | cons e rest ih =>
    obtain ⟨k', g⟩ := e
    rw [updateEntry_cons]
    by_cases h : k' = k
    · rw [if_pos h, lookupPair_cons, if_pos h, lookupPair_cons, if_pos h]
      simp
    · rw [if_neg h, lookupPair_cons, if_neg h, lookupPair_cons, if_neg h, ih]

/-- C1 (counterexample): a single aligned, high-mapq record whose query
identity equals its reference identity (`"1_2"` vs `"1_2"`: same taxon 1,
same gene 2) does not leave the Pairwise Leak Table unchanged:
`Leakage::from_sam` files it under the self-pair `(1, 1)` at gene 2. -/
theorem correct_record_changes_table :
    processRecord 4 ⟨[]⟩ ⟨"1_2", 0, "1_2", 0, 10, "*", "*", 0, 0, "*", "*"⟩ =
      some ⟨[((1, 1), ⟨[-1, -1, 1]⟩)]⟩ ∧
    from_sam 4 [⟨"1_2", 0, "1_2", 0, 10, "*", "*", 0, 0, "*", "*"⟩] ≠
      some ⟨[]⟩ := by
  exact ⟨by decide, by decide⟩

/-- C1 (amended): `Leakage::from_sam` files every record that passes the
unaligned and mapping-quality filters, with no correctness check: in
particular a record whose query identity equals its reference identity is
filed under the self-pair `(query, query)` at the shared gene index, and
the table is changed by it (the slot is bumped, so the table differs from
what it was before the record). -/
theorem passing_record_always_filed (minMapq : Nat) (tbl : Leakage)
    (r : Sam) (ft : FromTo)
    (hal : r.is_aligned = true) (hq : minMapq ≤ r.mapq)
    (hid : sam_to_ids r = some ft) :
    ∃ tbl', processRecord minMapq tbl r = some tbl' ∧
      lookupPair tbl'.map (ft.query, ft.reference) =
        some (((lookupPair tbl.map (ft.query, ft.reference)).getD
          ⟨[]⟩).increment ft.reference_gene) ∧
      tbl' ≠ tbl := by
  have hcond : (!r.is_aligned || decide (r.mapq < minMapq)) = false := by
    rw [hal]
    simp only [Bool.not_true, Bool.false_or, decide_eq_false_iff_not]
    omega
  refine ⟨⟨updateEntry tbl.map (ft.query, ft.reference) ft.reference_gene⟩, ?_, ?_, ?_⟩
  · unfold processRecord
    rw [hcond]
    simp only [Bool.false_eq_true, if_false, hid]
  · exact lookup_updateEntry_self tbl.map _ _
  · intro hcon
    have hmap : updateEntry tbl.map (ft.query, ft.reference) ft.reference_gene =
        tbl.map := congrArg Leakage.map hcon
    have hl := lookup_updateEntry_self tbl.map (ft.query, ft.reference)
      ft.reference_gene
    rw [hmap] at hl
    cases hy : lookupPair tbl.map (ft.query, ft.reference) with
    | none =>
      rw [hy] at hl
      cases hl
    | some g =>
      rw [hy] at hl
      have hg : g = g.increment ft.reference_gene := by
        simpa using hl
      have hx : Genes.slotD g.data ft.reference_gene =
          Genes.norm (Genes.slotD g.data ft.reference_gene) + 1 := by
        conv_lhs => rw [hg]
        rw [Genes.slotD_increment, if_pos rfl]
      unfold Genes.norm at hx
      split at hx <;> omega

/-- Witness for C1's amended theorem at a concrete correct record. -/
theorem passing_record_always_filed_witness :
    ∃ tbl', processRecord 4 ⟨[]⟩
        ⟨"1_3", 0, "1_3", 0, 7, "*", "*", 0, 0, "*", "*"⟩ = some tbl' ∧
      lookupPair tbl'.map (1, 1) =
        some (((lookupPair (Leakage.mk []).map (1, 1)).getD
          ⟨[]⟩).increment 3) ∧
      tbl' ≠ ⟨[]⟩ :=
  passing_record_always_filed 4 ⟨[]⟩
    ⟨"1_3", 0, "1_3", 0, 7, "*", "*", 0, 0, "*", "*"⟩ ⟨1, 1, 3, 3⟩
    (by decide) (by decide) (by decide)

namespace NormGenes

theorem fslot_growToF (d : List F64) (g j : Nat) :
    fslot (growToF d g) j = fslot d j := by
  unfold growToF fslot
  split
  · rfl
  · simp only [List.getD_eq_getElem?_getD]
    rcases lt_or_le j d.length with h | h
    · rw [List.getElem?_append_left h]
    · rw [List.getElem?_append_right h, List.getElem?_eq_none h,
        List.getElem?_replicate]
      split <;> rfl

theorem lt_length_growToF (d : List F64) (g : Nat) :
    g < (growToF d g).length := by
  unfold growToF
  split
  · assumption
  · simp
    omega

theorem fslot_set (d : List F64) (j : Nat) (v : F64) (i : Nat) :
    fslot (d.set j v) i = if j = i ∧ j < d.length then v else fslot d i := by
  unfold fslot
  simp only [List.getD_eq_getElem?_getD, List.getElem?_set]
  by_cases h : j = i
  · subst h
    by_cases h' : j < d.length
    · simp [h']
    · simp only [h', and_false, if_false, if_pos rfl, if_neg h']
      rw [List.getElem?_eq_none (le_of_not_lt h')]
      rfl
  · simp [h]

theorem mergeNormGo_replicate (g : Nat) :
    ∀ (d : List F64) (n : List Int) (g0 : Nat) (rest : List Int),
      mergeNormGo d (List.replicate g (-1) ++ rest) n g0 =
        mergeNormGo d rest n (g0 + g) := by
  induction g with
  | zero => intro d n g0 rest; simp
  | succ k ih =>
    intro d n g0 rest
    rw [List.replicate_succ, List.cons_append]
    have hstep : mergeNormGo d ((-1 : Int) :: (List.replicate k (-1) ++ rest)) n g0 =
        mergeNormGo d (List.replicate k (-1) ++ rest) n (g0 + 1) := rfl
    rw [hstep, ih]
    have harith : g0 + 1 + k = g0 + (k + 1) := by omega
    rw [harith]

theorem mergeNormGo_sentinel_tail (tail : List Int) :
    ∀ (d : List F64) (n : List Int) (g0 : Nat), (∀ x ∈ tail, x = -1) →
      mergeNormGo d tail n g0 = some d := by
  induction tail with
  | nil => intro d n g0 _; rfl
  | cons x rest ih =>
    intro d n g0 h
    have hx : x = -1 := h x (List.mem_cons_self _ _)
    subst hx
    unfold mergeNormGo
    rw [if_pos rfl]
    exact ih d n (g0 + 1) (fun y hy => h y (List.mem_cons_of_mem _ hy))

end NormGenes

/-- C3 (code_bug evaluation): `NormGenes::total` on the one-slot vector
`[NaN]` panics — `NaN < 0.0` and `NaN == f64::NAN` are both false, so the
NaN is added to the accumulator and `assert!(res >= 0.0)` fails — and on
`[+inf]` it returns `+inf`; the claim promises zero contribution and no
panic for non-finite slots. -/
theorem norm_total_nan_panics :
    NormGenes.total ⟨[F64.nan]⟩ = none ∧
    NormGenes.total ⟨[F64.inf]⟩ = some F64.inf := by
  refine ⟨by decide, by decide⟩

namespace NormGenes

theorem mergeNormGo_cons (d : List F64) (c : Int) (rest n : List Int) (g : Nat) :
    mergeNormGo d (c :: rest) n g =
      if c = -1 then mergeNormGo d rest n (g + 1)
      else
        (let d2 := growToF d g
         let d3 := if F64.beq (fslot d2 g) (F64.finite (-1)) then d2.set g F64.zero else d2
         if n.length ≤ g then none
         else
           let res := F64.div (F64.ofInt c) (F64.ofInt (n.getD g 0))
           if F64.lt F64.zero res then
             mergeNormGo (d3.set g (F64.add (fslot d3 g) res)) rest n (g + 1)
           else none) := rfl

theorem getD_zero_eq_slotD (n : List Int) (g : Nat) (h : g < n.length) :
    n.getD g 0 = Genes.slotD n g := by
  unfold Genes.slotD
  rw [List.getD_eq_getElem?_getD, List.getD_eq_getElem?_getD,
    List.getElem?_eq_getElem h]
  rfl

end NormGenes

/-- C4 (counterexample): merging the one-gene counts `[1]` into a fresh
accumulator panics when the normalizer slot is unset (`[-1]`: the ratio
`1 / -1` is negative, so `assert!(res > 0.0)` fires), and adds `+inf` when
the normalizer slot is zero (`[0]`: `1.0 / 0.0 = +inf` passes the
assertion) — neither case is skipped nor contributes zero. -/
theorem merge_normalized_panics_or_adds_inf :
    NormGenes.merge_normalized_from_counts ⟨[]⟩ ⟨[1]⟩ ⟨[-1]⟩ = none ∧
    NormGenes.merge_normalized_from_counts ⟨[]⟩ ⟨[1]⟩ ⟨[0]⟩ =
      some ⟨[F64.inf]⟩ := by
  constructor
  · show (NormGenes.mergeNormGo [] [1] [-1] 0).map NormGenes.mk = none
    rw [NormGenes.mergeNormGo_cons]
    norm_num [NormGenes.growToF, NormGenes.fslot, F64.ofInt, F64.div,
      F64.lt, F64.beq, F64.zero]
  · show (NormGenes.mergeNormGo [] [1] [0] 0).map NormGenes.mk =
      some ⟨[F64.inf]⟩
    rw [NormGenes.mergeNormGo_cons]
    norm_num [NormGenes.growToF, NormGenes.fslot, F64.ofInt, F64.div,
      F64.lt, F64.beq, F64.zero, F64.add]
    rfl

/-- C4 (amended): `merge_normalized_from_counts` applies no skip-or-zero
policy for an undefined ratio.  For counts whose (first and only) set gene
`g` holds a positive count `c`: if the normalizer slot at `g` is unset
(`-1`) the call panics — the ratio `c / -1` is negative and
`assert!(res > 0.0)` fails; if the normalizer slot is zero, the division
yields `+inf`, which passes the assertion and is added to the (fresh or
unset) accumulator slot. -/
theorem merge_normalized_unset_zero_behavior (self : NormGenes)
    (normalizer : Genes) (g : Nat) (c : Int) (hc : 0 < c) (tail : List Int)
    (htail : ∀ x ∈ tail, x = -1) (hlen : g < normalizer.data.length) :
    (Genes.slotD normalizer.data g = -1 →
      NormGenes.merge_normalized_from_counts self
        ⟨List.replicate g (-1) ++ c :: tail⟩ normalizer = none) ∧
    (Genes.slotD normalizer.data g = 0 →
      F64.beq (NormGenes.fslot self.data g) (F64.finite (-1)) = true →
      ∃ r, NormGenes.merge_normalized_from_counts self
          ⟨List.replicate g (-1) ++ c :: tail⟩ normalizer = some r ∧
        NormGenes.fslot r.data g = F64.inf) := by
  have hcne : ¬(c = -1) := by omega
  have hnlen : ¬(normalizer.data.length ≤ g) := by omega
  have hstart : NormGenes.mergeNormGo self.data
      (List.replicate g (-1) ++ c :: tail) normalizer.data 0 =
      NormGenes.mergeNormGo self.data (c :: tail) normalizer.data g := by
    rw [NormGenes.mergeNormGo_replicate]
    simp
  have hget := NormGenes.getD_zero_eq_slotD normalizer.data g hlen
  constructor
  · intro hunset
    show (NormGenes.mergeNormGo self.data
      (List.replicate g (-1) ++ c :: tail) normalizer.data 0).map NormGenes.mk = none
    rw [hstart, NormGenes.mergeNormGo_cons, if_neg hcne]
    simp only [if_neg hnlen]
    have hres : F64.div (F64.ofInt c) (F64.ofInt (normalizer.data.getD g 0)) =
        F64.finite (-(c : ℚ)) := by
      rw [hget, hunset]
      simp only [F64.ofInt, F64.div]
      rw [if_neg (show ¬(((-1 : Int) : ℚ) = 0) by norm_num)]
      congr 1
      push_cast
      ring
    rw [hres]
    have hlt : F64.lt F64.zero (F64.finite (-(c : ℚ))) = false := by
      unfold F64.lt F64.zero
      simp only [decide_eq_false_iff_not, not_lt]
      have : (0 : ℚ) < (c : ℚ) := by exact_mod_cast hc
      linarith
    rw [hlt]
    rfl
  · intro hzero hself
    show ∃ r, (NormGenes.mergeNormGo self.data
      (List.replicate g (-1) ++ c :: tail) normalizer.data 0).map NormGenes.mk =
        some r ∧ NormGenes.fslot r.data g = F64.inf
    rw [hstart, NormGenes.mergeNormGo_cons, if_neg hcne]
    simp only [if_neg hnlen]
    have hres : F64.div (F64.ofInt c) (F64.ofInt (normalizer.data.getD g 0)) =
        F64.inf := by
      rw [hget, hzero]
      simp only [F64.ofInt, F64.div]
      rw [if_pos (show ((0 : Int) : ℚ) = 0 by norm_num)]
      have hc0 : ¬((c : ℚ) = 0) := by
        intro hcon
        have : c = 0 := by exact_mod_cast hcon
        omega
      have hcneg : ¬((c : ℚ) < 0) := by
        simp only [not_lt]
        exact_mod_cast le_of_lt hc
      rw [if_neg hc0, if_neg hcneg]
    rw [hres]
    have hd2 : NormGenes.fslot (NormGenes.growToF self.data g) g =
        NormGenes.fslot self.data g := NormGenes.fslot_growToF self.data g g
    have hbeq : F64.beq (NormGenes.fslot (NormGenes.growToF self.data g) g)
        (F64.finite (-1)) = true := by rw [hd2]; exact hself
    simp only [hbeq, if_pos]
    have hglt : g < (NormGenes.growToF self.data g).length :=
      NormGenes.lt_length_growToF self.data g
    have hzslot : NormGenes.fslot
        ((NormGenes.growToF self.data g).set g F64.zero) g = F64.zero := by
      rw [NormGenes.fslot_set, if_pos ⟨rfl, hglt⟩]
    rw [hzslot]
    have hadd : F64.add F64.zero F64.inf = F64.inf := rfl
    rw [hadd]
    rw [NormGenes.mergeNormGo_sentinel_tail tail _ _ _ htail]
    refine ⟨_, rfl, ?_⟩
    rw [NormGenes.fslot_set, if_pos ⟨rfl, by simpa using hglt⟩]

/-- Witness for C4's amended theorem at concrete inputs. -/
theorem merge_normalized_unset_zero_behavior_witness :
    (NormGenes.merge_normalized_from_counts ⟨[]⟩
      ⟨List.replicate 0 (-1) ++ 2 :: []⟩ ⟨[-1]⟩ = none) ∧
    (∃ r, NormGenes.merge_normalized_from_counts ⟨[]⟩
        ⟨List.replicate 0 (-1) ++ 2 :: []⟩ ⟨[0]⟩ = some r ∧
      NormGenes.fslot r.data 0 = F64.inf) := by
  constructor
  · exact (merge_normalized_unset_zero_behavior ⟨[]⟩ ⟨[-1]⟩ 0 2 (by decide)
      [] (by decide) (by decide)).1 (by decide)
  · exact (merge_normalized_unset_zero_behavior ⟨[]⟩ ⟨[0]⟩ 0 2 (by decide)
      [] (by decide) (by decide)).2 (by decide) (by decide)

/-- C5 (code_bug evaluation): on the single record `q = "1_1"`,
`r = "2_5"`, mapq 10, the first pass counts one read for taxon 1 gene 1;
the second pass then computes `ref_total` by matching on `qt` — the query
taxon's totals — instead of `rt`, indexes taxon 1's two-slot vector at the
reference gene 5, and panics, where the claim says the total computed for
the reference taxon and gene (here missing, to be special-cased) is used. -/
theorem fractional_scheme_wrong_ref_total :
    get_species_total 4 [⟨"1_1", 0, "2_5", 0, 10, "*", "*", 0, 0, "*", "*"⟩] =
      some [(1, [none, some 1])] ∧
    get_normalized_gene_leaks 4
      [⟨"1_1", 0, "2_5", 0, 10, "*", "*", 0, 0, "*", "*"⟩]
      [(1, [none, some 1])] = none := by
  exact ⟨by decide, by decide⟩

/-- C9: for every per-taxon ledger entry and every threshold, the leaked-on
genes are a subset of the touched genes — so `num_leaked_on_genes(t)` never
exceeds `num_genes` and the `usize` subtraction inside `num_good_genes`
cannot underflow — and `num_good_genes(t) + num_leaked_on_genes(t) =
num_genes`. -/
theorem good_plus_leaked_eq_num_genes (s : Species) (t : F64) :
    s.num_leaked_on_genes t ≤ s.num_genes ∧
    s.num_good_genes t + s.num_leaked_on_genes t = s.num_genes := by
  have hle : s.num_leaked_on_genes t ≤ s.num_genes := by
    unfold Species.num_leaked_on_genes Species.num_genes
    rw [← List.countP_eq_length_filter, ← List.countP_eq_length_filter]
    apply List.countP_mono_left
    intro x _ hx
    cases x with
    | some lk => rfl
    | none => simp [Species.leakedAt] at hx
  refine ⟨hle, ?_⟩
  unfold Species.num_good_genes
  omega

namespace GeneLeaks

theorem keyLe_trans (a b c : Int × Int) (h1 : keyLe a b = true)
    (h2 : keyLe b c = true) : keyLe a c = true := by
  unfold keyLe at *
  simp only [Bool.or_eq_true, Bool.and_eq_true, decide_eq_true_eq,
    beq_iff_eq] at *
  omega

theorem keyLe_total (a b : Int × Int) : (keyLe a b || keyLe b a) = true := by
  unfold keyLe
  simp only [Bool.or_eq_true, Bool.and_eq_true, decide_eq_true_eq,
    beq_iff_eq]
  omega

theorem entryLe_trans (a b c : Nat × Species) (h1 : entryLe a b = true)
    (h2 : entryLe b c = true) : entryLe a c = true :=
  keyLe_trans _ _ _ h1 h2

theorem entryLe_total (a b : Nat × Species) :
    (entryLe a b || entryLe b a) = true :=
  keyLe_total _ _

end GeneLeaks

/-- C8 (counterexample): two taxa with identical ranking keys (both ledgers
empty) entered in map order `[2, 1]` come out of `top_incoming` still in
order `[2, 1]`: the sort is stable on its two keys only and does not break
ties by ascending taxon identifier. -/
theorem top_incoming_no_id_tiebreak :
    GeneLeaks.top_incoming ⟨[(2, ⟨2, []⟩), (1, ⟨1, []⟩)]⟩ =
      [(2, ⟨2, []⟩), (1, ⟨1, []⟩)] ∧
    (GeneLeaks.top_incoming ⟨[(2, ⟨2, []⟩), (1, ⟨1, []⟩)]⟩).map Prod.fst ≠
      [1, 2] := by
  have heq : GeneLeaks.top_incoming ⟨[(2, ⟨2, []⟩), (1, ⟨1, []⟩)]⟩ =
      [(2, ⟨2, []⟩), (1, ⟨1, []⟩)] := by
    have hpair : List.Pairwise (fun a b => GeneLeaks.entryLe a b = true)
        [((2 : Nat), (⟨2, []⟩ : Species)), (1, ⟨1, []⟩)] := by
      refine List.pairwise_cons.mpr ⟨?_, List.pairwise_singleton _ _⟩
      intro b hb
      rw [List.mem_singleton] at hb
      subst hb
      decide
    have hsub := List.sublist_mergeSort GeneLeaks.entryLe_trans
      GeneLeaks.entryLe_total hpair
      (List.Sublist.refl [((2 : Nat), (⟨2, []⟩ : Species)), (1, ⟨1, []⟩)])
    have hperm := List.mergeSort_perm
      [((2 : Nat), (⟨2, []⟩ : Species)), (1, ⟨1, []⟩)] GeneLeaks.entryLe
    exact (hsub.eq_of_length hperm.length_eq.symm).symm
  refine ⟨heq, ?_⟩
  rw [heq]
  decide

/-- C8 (amended): `top_incoming` returns a permutation of the per-taxon map
entries, sorted (non-strictly) by the two-component key
`(-num_leaked_on_genes(0), -(total_incoming_leaks(0) truncated to isize))`;
remaining ties are left in the underlying map's iteration order (the sort is
stable: any key-sorted subsequence of the input survives as a subsequence of
the output) — the taxon identifier is never consulted. -/
theorem top_incoming_sorted_and_stable (gl : GeneLeaks) :
    (gl.top_incoming).Perm gl.species ∧
    List.Pairwise (fun a b => GeneLeaks.entryLe a b = true) gl.top_incoming ∧
    ∀ sub : List (Nat × Species),
      List.Pairwise (fun a b => GeneLeaks.entryLe a b = true) sub →
      sub.Sublist gl.species → sub.Sublist gl.top_incoming := by
  refine ⟨List.mergeSort_perm _ _, ?_, ?_⟩
  · exact List.sorted_mergeSort GeneLeaks.entryLe_trans
      GeneLeaks.entryLe_total gl.species
  · intro sub hpair hsub
    exact List.sublist_mergeSort GeneLeaks.entryLe_trans
      GeneLeaks.entryLe_total hpair hsub
